import Mathlib

/-!
Verification of the simble affinity-maturation simulator core.

This file gives a shallow embedding, in Lean 4, of the parts of the
simble code base (src/simble) that the checked properties are about:

* `helper.translate_to_amino_acid` / `codon_to_amino_acid`
* `chain.Chain` (nucleotide sequence, gap map, amino-acid sequence,
  per-position mutability map, junction bookkeeping, `mutate`,
  `create_mutability_map`, `update_mutability_map`, `calculate_affinity`)
* `cell.Cell` (`calculate_affinity`, `differentiate`)
* `simulation.make_new_child` / `make_new_generation` (antigen draws,
  child spawning, the live-children filter, selection weights)
* `tree.Node.prune_subtree` (`_build_tree_to_keep`) and
  `tree.simplify_tree`

Machine integers do not occur (Python ints are unbounded); numeric
affinities are modelled over `ℚ`.  The external 5-mer mutability and
substitution tables are data files, so functions that consult them are
parameterized by the table (`tbl : Bool → List Char → ℚ`, the `Bool`
being the heavy/light class tag).  Stochastic draws (`numpy.Generator`
`choice`/`poisson`) are modelled by explicit oracles supplying the drawn
outcome of each call; the validation `numpy` performs on the weight
vector `p` of `choice` is modelled explicitly where a claim depends on
it.
-/

/-- `helper.codon_to_amino_acid`'s lookup table, as an association list.
The Python dict maps each of the 64 codons (plus `"..."`) to a one-letter
amino-acid code; any other key falls through to `'X'`. -/
def codon_table : List (List Char × Char) :=
  [ (['A','T','A'], 'I'), (['A','T','C'], 'I'), (['A','T','T'], 'I'), (['A','T','G'], 'M'),
    (['A','C','A'], 'T'), (['A','C','C'], 'T'), (['A','C','G'], 'T'), (['A','C','T'], 'T'),
    (['A','A','C'], 'N'), (['A','A','T'], 'N'), (['A','A','A'], 'K'), (['A','A','G'], 'K'),
    (['A','G','C'], 'S'), (['A','G','T'], 'S'), (['A','G','A'], 'R'), (['A','G','G'], 'R'),
    (['C','T','A'], 'L'), (['C','T','C'], 'L'), (['C','T','G'], 'L'), (['C','T','T'], 'L'),
    (['C','C','A'], 'P'), (['C','C','C'], 'P'), (['C','C','G'], 'P'), (['C','C','T'], 'P'),
    (['C','A','C'], 'H'), (['C','A','T'], 'H'), (['C','A','A'], 'Q'), (['C','A','G'], 'Q'),
    (['C','G','A'], 'R'), (['C','G','C'], 'R'), (['C','G','G'], 'R'), (['C','G','T'], 'R'),
    (['G','T','A'], 'V'), (['G','T','C'], 'V'), (['G','T','G'], 'V'), (['G','T','T'], 'V'),
    (['G','C','A'], 'A'), (['G','C','C'], 'A'), (['G','C','G'], 'A'), (['G','C','T'], 'A'),
    (['G','A','C'], 'D'), (['G','A','T'], 'D'), (['G','A','A'], 'E'), (['G','A','G'], 'E'),
    (['G','G','A'], 'G'), (['G','G','C'], 'G'), (['G','G','G'], 'G'), (['G','G','T'], 'G'),
    (['T','C','A'], 'S'), (['T','C','C'], 'S'), (['T','C','G'], 'S'), (['T','C','T'], 'S'),
    (['T','T','C'], 'F'), (['T','T','T'], 'F'), (['T','T','A'], 'L'), (['T','T','G'], 'L'),
    (['T','A','C'], 'Y'), (['T','A','T'], 'Y'), (['T','A','A'], '_'), (['T','A','G'], '_'),
    (['T','G','C'], 'C'), (['T','G','T'], 'C'), (['T','G','A'], '_'), (['T','G','G'], 'W'),
    (['.','.','.'], 'X') ]

/-- `helper.codon_to_amino_acid`: table lookup with default `'X'`. -/
def codon_to_amino_acid (codon : List Char) : Char :=
  (codon_table.lookup codon).getD 'X'

/-- `helper.translate_to_amino_acid`: translate whole codons left to
right; the loop breaks once fewer than three nucleotides remain, so a
trailing fragment is dropped. -/
def translate_to_amino_acid : List Char → List Char
  | c1 :: c2 :: c3 :: rest =>
    codon_to_amino_acid [c1, c2, c3] :: translate_to_amino_acid rest
  | _ => []

/-- `chain.Chain`: the mutable per-chain state.  The heavy/light subclass
distinction is carried by the `IS_HEAVY` class tag.  `affinity` is the
scalar set by `calculate_affinity`; `junction_start` is an `Int` because
Python's `str.find` records `-1` when the junction is absent. -/
structure Chain where
  IS_HEAVY : Bool
  nucleotide_seq : List Char
  nucleotide_gaps : List (ℕ × ℕ)
  amino_acid_seq : List Char
  mutability_map : List ℚ
  cdr3_length : ℕ
  junction_start : Int
  junction_length : ℕ
  affinity : ℚ
deriving Repr, DecidableEq

/-- `Chain.get_gapped_sequence`: re-insert `'.'` runs at the recorded gap
positions (the gap dict iterates in insertion order, i.e. ascending scan
order of the originally supplied aligned sequence). -/
def Chain.get_gapped_sequence (c : Chain) : List Char :=
  c.nucleotide_gaps.foldl
    (fun g pl => g.take pl.1 ++ List.replicate pl.2 '.' ++ g.drop pl.1)
    c.nucleotide_seq

/-- `Chain.get_functionality`: a chain is functional iff its amino-acid
sequence contains no stop marker `'_'`. -/
def Chain.get_functionality (c : Chain) : Bool :=
  !(c.amino_acid_seq.contains '_')

/-- The padded sequence `"NN" + nucleotide_seq + "NN"` used for 5-mer
context windows in `create_mutability_map` / `update_mutability_map`. -/
def padded_seq (seq : List Char) : List Char :=
  'N' :: 'N' :: seq ++ ['N', 'N']

/-- The 5-mer context window `padded_seq[i:i+5]` centred on position `i`. -/
def kmer_at (seq : List Char) (i : ℕ) : List Char :=
  ((padded_seq seq).drop i).take 5

/-- `Chain.create_mutability_map`: one table lookup per nucleotide
position, on the 5-mer window centred there.  `mut` is the
`get_mutability_of_kmer` table lookup for the chain's class tag. -/
def create_mutability_map (mtbl : List Char → ℚ) (seq : List Char) : List ℚ :=
  (List.range seq.length).map (fun i => mtbl (kmer_at seq i))

/-- `Chain.update_mutability_map`: for each mutated position `i`,
recompute only the entries in `[max 0 (i-2), min len (i+3))`. -/
def update_mutability_map (mtbl : List Char → ℚ) (seq : List Char)
    (m : List ℚ) (mutated_positions : List ℕ) : List ℚ :=
  mutated_positions.foldl
    (fun m i =>
      (List.range' (i - 2) (min seq.length (i + 3) - (i - 2))).foldl
        (fun m j => m.set j (mtbl (kmer_at seq j))) m)
    m

/-- The in-place single-nucleotide substitution
`seq[:i] + c + seq[i+1:]` performed by `Chain.mutate` (the drawn
position always satisfies `i < len(seq)`). -/
def substitute_nucleotide (seq : List Char) (i : ℕ) (c : Char) : List Char :=
  seq.set i c

/-- One incremental step of `Chain.mutate`'s inner loop acting on the
pair (nucleotide sequence, mutability map): substitute at the drawn
position, then window-update the map on the new sequence. -/
def mutability_step (mtbl : List Char → ℚ) (st : List Char × List ℚ)
    (p : ℕ × Char) : List Char × List ℚ :=
  let seq' := substitute_nucleotide st.1 p.1 p.2
  (seq', update_mutability_map mtbl seq' st.2 [p.1])

/-- A sequence of single-nucleotide substitutions applied incrementally,
starting from the from-scratch map of the starting sequence. -/
def apply_substitutions (mtbl : List Char → ℚ) (seq : List Char)
    (subs : List (ℕ × Char)) : List Char × List ℚ :=
  subs.foldl (mutability_step mtbl) (seq, create_mutability_map mtbl seq)

/-- `Chain.mutate`: perform `n` substitution events (each drawn position
and replacement nucleotide supplied by the oracles `pos`/`sub`,
modelling the weighted `RNG.choice` draws), incrementally maintaining
the mutability map, then retranslate the amino-acid sequence.  Returns
the updated chain together with the returned event count `n`.
When `n = 0` the call is a no-op (the source returns before
retranslating). -/
def Chain.mutate (tbl : Bool → List Char → ℚ) (pos : ℕ → ℕ)
    (sub : ℕ → Char) (c : Chain) (n : ℕ) : Chain × ℕ :=
  if n = 0 then (c, n)
  else
    let c' := (List.range n).foldl
      (fun c k =>
        let i := pos k
        let seq' := substitute_nucleotide c.nucleotide_seq i (sub k)
        { c with
          nucleotide_seq := seq',
          mutability_map :=
            update_mutability_map (tbl c.IS_HEAVY) seq' c.mutability_map [i] })
      c
    ({ c' with
        amino_acid_seq := translate_to_amino_acid c'.get_gapped_sequence },
      n)

/-- Python's `str.find`: the least start index at which the pattern
occurs as a substring, or `-1` if it does not occur. -/
def str_find (s pat : List Char) : Int :=
  match (List.range (s.length + 1)).find?
      (fun i => pat.length + i ≤ s.length && (s.drop i).take pat.length == pat) with
  | some i => (i : Int)
  | none => -1

/-- The junction bookkeeping performed at the end of `Chain.__init__`
when a junction string is supplied: `junction_start = seq.find(junction)`
and `junction_length = len(junction)`.  No check is made that the
junction actually occurs; construction always completes. -/
def Chain.set_junction (c : Chain) (junction : List Char) : Chain :=
  { c with
    junction_start := str_find c.nucleotide_seq junction,
    junction_length := junction.length }

/-- `target.TargetAminoAcid` as consumed by affinity evaluation: the
translated target sequence and the position-indexed multiplier map
`all_multipliers` (a dict covering every amino-acid position, modelled
as a function). -/
structure TargetAminoAcid where
  amino_acid_seq : List Char
  all_multipliers : ℕ → ℚ

/-- `target.TargetAminoPair`. -/
structure TargetAminoPair where
  heavy : TargetAminoAcid
  light : TargetAminoAcid

/-- The affinity accumulation of `Chain.calculate_affinity`: walk the
chain's amino-acid sequence; multiply by the target's per-position
multiplier on a match and by its reciprocal on a mismatch. -/
def affinity_fold (aa : List Char) (t : TargetAminoAcid) : ℚ :=
  (List.range aa.length).foldl
    (fun acc i =>
      if aa.getD i ' ' = t.amino_acid_seq.getD i ' ' then
        acc * t.all_multipliers i
      else
        acc * (t.all_multipliers i)⁻¹)
    1

/-- `Chain.calculate_affinity`: computes the accumulated affinity and
stores it on the chain (the similarity bookkeeping fields are not
modelled; no claim refers to them). -/
def Chain.calculate_affinity (c : Chain) (t : TargetAminoAcid) : Chain :=
  { c with affinity := affinity_fold c.amino_acid_seq t }

/-- `cell.CellType`: DEFAULT (naive), Plasma Cell, Memory B Cell. -/
inductive CellType where
  | DEFAULT
  | PC
  | MBC
deriving Repr, DecidableEq

/-- `location.LocationName`. -/
inductive LocationName where
  | GC
  | OTHER
deriving Repr, DecidableEq

/-- `cell.Cell`: pairs the two chains with lifecycle state.  The
constructor defaults (`Cell.__init__`) are `is_alive = True`,
`cell_type = DEFAULT`, `affinity = 1`, with the mutation rate taken from
the GC settings iff the cell is located in the GC. -/
structure Cell where
  heavy_chain : Chain
  light_chain : Chain
  created_at : ℕ
  is_alive : Bool
  location : LocationName
  cell_type : CellType
  mutation_rate : ℚ
  affinity : ℚ
deriving Repr, DecidableEq

/-- `Cell.__init__` with both chains supplied (the branch used by
`make_new_child`): fresh cells are alive, of DEFAULT type, with
affinity 1.  `gc_rate` is `s.LOCATIONS[0].mutation_rate`. -/
def Cell.make (heavy_chain light_chain : Chain) (created_at : ℕ)
    (location : LocationName) (gc_rate : ℚ) : Cell :=
  { heavy_chain := heavy_chain
    light_chain := light_chain
    created_at := created_at
    is_alive := true
    location := location
    cell_type := CellType.DEFAULT
    mutation_rate := if location = LocationName.GC then gc_rate else 0
    affinity := 1 }

/-- `Cell.kill_cell`. -/
def Cell.kill_cell (c : Cell) : Cell :=
  { c with is_alive := false }

/-- `Cell.differentiate`: sets the cell type to the requested type. -/
def Cell.differentiate (c : Cell) (cell_type : CellType) : Cell :=
  { c with cell_type := cell_type }

/-- `Cell.calculate_affinity`: each chain is scored against its own
target; the cell affinity is the product, overridden to `0` when either
chain is non-functional. -/
def Cell.calculate_affinity (c : Cell) (target_pair : TargetAminoPair) : Cell :=
  let h := c.heavy_chain.calculate_affinity target_pair.heavy
  let l := c.light_chain.calculate_affinity target_pair.light
  let aff := h.affinity * l.affinity
  let aff :=
    if !h.get_functionality || !l.get_functionality then 0 else aff
  { c with heavy_chain := h, light_chain := l, affinity := aff }

/-- `Cell.mutate_cell`: mutate both chains.  The Poisson event counts
and the per-event position/nucleotide draws are supplied by oracles. -/
def Cell.mutate_cell (tbl : Bool → List Char → ℚ)
    (nH nL : ℕ) (posH posL : ℕ → ℕ) (subH subL : ℕ → Char)
    (c : Cell) : Cell × ℕ × ℕ :=
  let h := Chain.mutate tbl posH subH c.heavy_chain nH
  let l := Chain.mutate tbl posL subL c.light_chain nL
  ({ c with heavy_chain := h.1, light_chain := l.1 }, h.2, l.2)

/-- `tree.Node` as it participates in the per-generation reproduction
step: its cell, its captured-antigen counter, the per-edge mutation
counts and its generation index (tree linkage is by reference in the
source and irrelevant to the population claims). -/
structure SimNode where
  cell : Cell
  antigen : ℕ
  heavy_mutations : ℕ
  light_mutations : ℕ
  generation : ℕ
deriving Repr, DecidableEq

/-- The oracle outcomes consumed when spawning one child: the two
Poisson event counts and the per-event weighted position / substitution
nucleotide draws for each chain. -/
structure ChildDraws where
  nH : ℕ
  nL : ℕ
  posH : ℕ → ℕ
  subH : ℕ → Char
  posL : ℕ → ℕ
  subL : ℕ → Char

/-- `simulation.make_new_child`: copy the parent's chains into a fresh
cell (chain `copy()` duplicates the value, so it is the identity in this
pure embedding), mutate the fresh cell, record the mutation counts on
the child node, and evaluate the child's affinity against the shared
target. -/
def make_new_child (tbl : Bool → List Char → ℚ) (target_pair : TargetAminoPair)
    (time : ℕ) (gc_rate : ℚ) (d : ChildDraws) (node : SimNode) : SimNode :=
  let child_cell :=
    Cell.make node.cell.heavy_chain node.cell.light_chain time
      node.cell.location gc_rate
  let m := Cell.mutate_cell tbl d.nH d.nL d.posH d.posL d.subH d.subL child_cell
  let child_cell := m.1.calculate_affinity target_pair
  { cell := child_cell
    antigen := 0
    heavy_mutations := m.2.1
    light_mutations := m.2.2
    generation := node.generation + 1 }

/-- The children spawned from one parent in
`simulation.make_new_generation`:
`[make_new_child(node) for _ in range(min(node.antigen, 10))]`. -/
def spawn_children (tbl : Bool → List Char → ℚ) (target_pair : TargetAminoPair)
    (time : ℕ) (gc_rate : ℚ) (ds : ℕ → ChildDraws) (node : SimNode) :
    List SimNode :=
  (List.range (min node.antigen 10)).map
    (fun j => make_new_child tbl target_pair time gc_rate (ds j) node)

/-- The per-parent contribution to the next generation:
`live_children = [x for x in children if x.cell.is_alive]`. -/
def live_children_of (tbl : Bool → List Char → ℚ) (target_pair : TargetAminoPair)
    (time : ℕ) (gc_rate : ℚ) (ds : ℕ → ChildDraws) (node : SimNode) :
    List SimNode :=
  (spawn_children tbl target_pair time gc_rate ds node).filter
    (fun x => x.cell.is_alive)

/-- The antigen-capture loop of `simulation.make_new_generation`:
`available_antigen = max_population` draws, each incrementing the drawn
node's counter (`draw k` is the index drawn from the weighted or uniform
`RNG.choice` at step `k`). -/
def distribute_antigen (gen : List SimNode) (max_population : ℕ)
    (draw : ℕ → ℕ) : List SimNode :=
  (List.range max_population).foldl
    (fun g k => g.modify (fun nd => { nd with antigen := nd.antigen + 1 }) (draw k))
    gen

/-- The total number of reproductive units captured by a generation. -/
def total_antigen (gen : List SimNode) : ℕ :=
  (gen.map (fun nd => nd.antigen)).sum

/-- `location.number_of_children` as recorded by
`make_new_generation`: `[min(x.antigen, 10) for x in current_generation]`. -/
def number_of_children (gen : List SimNode) : List ℕ :=
  gen.map (fun nd => min nd.antigen 10)

/-- The selection-weight vector of `make_new_generation`:
`p = np.array(affinities) / np.sum(affinities)` when selection is on,
`None` otherwise.  (Over `ℚ`, division by a zero sum yields `0`; in the
source the float division yields `nan` — either way the resulting vector
fails `numpy`'s sum-to-one validation below.) -/
def selection_weights (selection : Bool) (gen : List SimNode) :
    Option (List ℚ) :=
  if selection then
    some ((gen.map (fun nd => nd.cell.affinity)).map
      (fun a => a / (gen.map (fun nd => nd.cell.affinity)).sum))
  else
    none

/-- `numpy.Generator.choice(a, p=p)` as invoked in the antigen-capture
loop: with `p = None` it draws uniformly; with an explicit `p` it first
validates that `p` has the same length as `a`, is non-negative, and sums
to one, raising `ValueError` otherwise.  `u` is the oracle outcome of
the draw (an index into `gen`). -/
def rng_choice_node (gen : List SimNode) (p : Option (List ℚ)) (u : ℕ) :
    Except String SimNode :=
  if h : gen.length = 0 then
    Except.error "a must be a positive integer unless no samples are taken"
  else
    match p with
    | none => Except.ok (gen.get ⟨u % gen.length, Nat.mod_lt u (Nat.pos_of_ne_zero h)⟩)
    | some p =>
      if p.length ≠ gen.length then
        Except.error "a and p must have same size"
      else if p.any (fun x => x < 0) then
        Except.error "probabilities are not non-negative"
      else if p.sum ≠ 1 then
        Except.error "probabilities do not sum to 1"
      else
        Except.ok (gen.get ⟨u % gen.length, Nat.mod_lt u (Nat.pos_of_ne_zero h)⟩)

/-- Whether an `Except` result is a success. -/
def except_ok {ε α : Type} : Except ε α → Bool
  | Except.ok _ => true
  | Except.error _ => false

/-- The per-node record of `tree.Node` relevant to pruning and
simplification: a stable cell identity (the source uses `id(node.cell)`,
unique among the simultaneously live cells of a tree), the per-edge
mutation counts, and the `time_since_last_split` field that only the
simplified view populates. -/
structure NodeData where
  cell_id : ℕ
  heavy_mutations : ℕ
  light_mutations : ℕ
  time_since_last_split : Option ℕ
deriving Repr, DecidableEq

attribute [ext] NodeData

/-- The lineage tree: each `tree.Node` owns its list of children. -/
inductive LTree where
  | node (data : NodeData) (children : List LTree)

/-- The node record at the root of a subtree. -/
def LTree.data : LTree → NodeData
  | LTree.node d _ => d

/-- The children of the root of a subtree. -/
def LTree.children : LTree → List LTree
  | LTree.node _ cs => cs

/-- Number of nodes of a tree (for termination of nested recursions). -/
def LTree.size : LTree → ℕ
  | LTree.node _ cs => 1 + (cs.attach.map (fun c => LTree.size c.1)).sum
termination_by t => sizeOf t
decreasing_by have h := List.sizeOf_lt_of_mem c.2; simp; omega

/-- `tree._build_tree_to_keep`: bottom-up pruning.  A subtree whose
children all prune away survives only if its own cell identity is kept
(as a childless copy — `Node.copy()` drops children); otherwise a copy
of the node is retained with exactly the surviving child subtrees. -/
def build_tree_to_keep (to_keep : List ℕ) : LTree → Option LTree
  | LTree.node d cs =>
    let subtrees_to_keep :=
      (cs.attach.map (fun c => build_tree_to_keep to_keep c.1)).reduceOption
    if subtrees_to_keep.isEmpty then
      if d.cell_id ∈ to_keep then some (LTree.node d []) else none
    else
      some (LTree.node d subtrees_to_keep)
termination_by t => sizeOf t
decreasing_by have h := List.sizeOf_lt_of_mem c.2; simp; omega

/-- `tree.Node.prune_subtree`. -/
def prune_subtree (t : LTree) (to_keep : List ℕ) : Option LTree :=
  build_tree_to_keep to_keep t

/-- The cell identities at the leaves of a tree, left to right. -/
def leaf_ids : LTree → List ℕ
  | LTree.node d cs =>
    match cs with
    | [] => [d.cell_id]
    | cs2 => (cs2.attach.map (fun c => leaf_ids c.1)).flatten
termination_by t => sizeOf t
decreasing_by have h := List.sizeOf_lt_of_mem c.2; simp; omega

/-- The cell identities of all nodes of a tree. -/
def all_ids : LTree → List ℕ
  | LTree.node d cs => d.cell_id :: (cs.attach.map (fun c => all_ids c.1)).flatten
termination_by t => sizeOf t
decreasing_by have h := List.sizeOf_lt_of_mem c.2; simp; omega

/-- The kept tips of a tree under a keep-set (a specification-side
notion): the identities, in traversal order, of the nodes whose identity
is in the keep-set and none of whose strict descendants has an identity
in the keep-set. -/
def kept_tips (to_keep : List ℕ) : LTree → List ℕ
  | LTree.node d cs =>
    match (cs.attach.map (fun c => kept_tips to_keep c.1)).flatten with
    | [] => if d.cell_id ∈ to_keep then [d.cell_id] else []
    | below => below
termination_by t => sizeOf t
decreasing_by have h := List.sizeOf_lt_of_mem c.2; simp; omega

/-- The leaf identities of the pruned tree (`[]` when the whole tree
prunes away). -/
def pruned_leaf_ids (t : LTree) (to_keep : List ℕ) : List ℕ :=
  match prune_subtree t to_keep with
  | none => []
  | some t' => leaf_ids t'

/-- The body of `tree.simplify_tree`'s work loop, for one queue entry
`(parent, current_node, time_since_last_split, heavy…, light…)`: a node
with exactly one child is collapsed (accumulating its edge's mutation
counts and one generation of elapsed time); any other node is retained,
its edge annotated with the accumulated counts, and its children
restarted with zeroed accumulators. -/
def simplify_go (t : LTree) (time_since_last_split h l : ℕ) : LTree :=
  match t with
  | LTree.node d cs =>
    match cs with
    | [c] => simplify_go c (time_since_last_split + 1)
        (h + d.heavy_mutations) (l + d.light_mutations)
    | cs2 =>
      LTree.node
        { d with
          time_since_last_split := some (time_since_last_split + 1),
          heavy_mutations := d.heavy_mutations + h,
          light_mutations := d.light_mutations + l }
        (cs2.attach.map (fun c => simplify_go c.1 0 0 0))
termination_by sizeOf t
decreasing_by
  · simp; omega
  · have h := List.sizeOf_lt_of_mem c.2; simp; omega

/-- `tree.simplify_tree`: the root is copied unchanged and each of its
child subtrees is processed with zeroed accumulators. -/
def simplify_tree (t : LTree) : LTree :=
  match t with
  | LTree.node d cs =>
    LTree.node d (cs.attach.map (fun c => simplify_go c.1 0 0 0))

/-- The unary chain starting at a node: the node itself followed, as
long as the current node has exactly one child, by that child.  This is
the "collapsed original path" between two adjacent retained nodes. -/
def unary_chain : LTree → List LTree
  | LTree.node d cs =>
    match cs with
    | [c] => LTree.node d cs :: unary_chain c
    | _ => [LTree.node d cs]
termination_by t => sizeOf t
decreasing_by simp; omega

/-- The retained node a unary chain ends at: the first node reached
that does not have exactly one child. -/
def retained_end : LTree → LTree
  | LTree.node d cs =>
    match cs with
    | [c] => retained_end c
    | _ => LTree.node d cs
termination_by t => sizeOf t
decreasing_by simp; omega

/-- Mapping a projection-composed function over `attach` is mapping the
function itself (used to reason about the nested tree recursions). -/
theorem list_attach_map {α β : Type} (l : List α) (f : α → β) :
    (l.attach.map (fun x => f x.1)) = l.map f := by
  simp

/-- A constant mutability table (any strictly positive table behaves the
same for the structural properties below). -/
def tbl1 : Bool → List Char → ℚ := fun _ _ => 1

/-- A concrete functional heavy chain: `"TGC"` translates to `"C"`. -/
def chainC : Chain :=
  { IS_HEAVY := true, nucleotide_seq := ['T','G','C'], nucleotide_gaps := [],
    amino_acid_seq := ['C'], mutability_map := [1, 1, 1], cdr3_length := 13,
    junction_start := 0, junction_length := 3, affinity := 1 }

/-- A concrete functional light chain: `"ATG"` translates to `"M"`. -/
def chainM : Chain :=
  { IS_HEAVY := false, nucleotide_seq := ['A','T','G'], nucleotide_gaps := [],
    amino_acid_seq := ['M'], mutability_map := [1, 1, 1], cdr3_length := 13,
    junction_start := 0, junction_length := 3, affinity := 1 }

/-- A concrete non-functional light chain: `"TGA"` translates to the
stop marker `"_"`. -/
def chainStop : Chain :=
  { IS_HEAVY := false, nucleotide_seq := ['T','G','A'], nucleotide_gaps := [],
    amino_acid_seq := ['_'], mutability_map := [1, 1, 1], cdr3_length := 13,
    junction_start := 0, junction_length := 3, affinity := 1 }

/-- A concrete chain `"AAA"` (translates to `"K"`). -/
def chainK : Chain :=
  { IS_HEAVY := true, nucleotide_seq := ['A','A','A'], nucleotide_gaps := [],
    amino_acid_seq := ['K'], mutability_map := [1, 1, 1], cdr3_length := 13,
    junction_start := 0, junction_length := 3, affinity := 1 }

/-- Concrete target matching `chainC`. -/
def targetC : TargetAminoAcid :=
  { amino_acid_seq := ['C'], all_multipliers := fun _ => 2 }

/-- Concrete target matching `chainM`. -/
def targetM : TargetAminoAcid :=
  { amino_acid_seq := ['M'], all_multipliers := fun _ => 2 }

/-- Concrete target pair. -/
def tpCM : TargetAminoPair := { heavy := targetC, light := targetM }

/-- A concrete memory cell (type already `MBC`). -/
def mbc_cell : Cell :=
  { heavy_chain := chainC, light_chain := chainM, created_at := 0,
    is_alive := true, location := LocationName.GC,
    cell_type := CellType.MBC, mutation_rate := 1, affinity := 1 }

/-- Claim C9 (counterexample): `Cell.differentiate` performs no state
check, so a transition other than Naive→Memory/Naive→Plasma is
possible: differentiating a concrete Memory B cell to Plasma changes its
type to Plasma, contradicting the claim that no transition other than
the two from Naive can occur. -/
theorem differentiate_mbc_to_pc_possible :
    mbc_cell.cell_type = CellType.MBC ∧
    (mbc_cell.differentiate CellType.PC).cell_type = CellType.PC := by
  exact ⟨rfl, rfl⟩

/-- Claim C9 (amended): `Cell.differentiate` unconditionally sets the
cell's type to the requested type, for every cell and every target type;
the Naive→{Memory, Plasma} discipline is not enforced by the method. -/
theorem differentiate_sets_requested_type (c : Cell) (t : CellType) :
    (c.differentiate t).cell_type = t := rfl

/-- Claim C8 (counterexample): constructing a chain whose junction does
not occur in its nucleotide sequence completes (the embedded
constructor is total, mirroring the source's unconditional
`seq.find(junction)`) and silently records the sentinel
`junction_start = -1` instead of failing. -/
theorem junction_absent_completes_with_neg_one :
    ¬ (['G'] <:+: chainK.nucleotide_seq) ∧
    (chainK.set_junction ['G']).junction_start = -1 := by
  constructor
  · decide
  · decide

/-- Claim C8 (amended): when the junction string does not occur as a
substring of the chain's nucleotide sequence, construction nevertheless
completes, recording Python's `str.find` not-found sentinel
`junction_start = -1` (an invalid junction position) and the junction's
length. -/
theorem junction_absent_records_neg_one (c : Chain) (junction : List Char)
    (h : ¬ (junction <:+: c.nucleotide_seq)) :
    (c.set_junction junction).junction_start = -1 ∧
    (c.set_junction junction).junction_length = junction.length := by
  refine ⟨?_, rfl⟩
  show str_find c.nucleotide_seq junction = -1
  unfold str_find
  cases hfind : (List.range (c.nucleotide_seq.length + 1)).find?
      (fun i => junction.length + i ≤ c.nucleotide_seq.length &&
        (c.nucleotide_seq.drop i).take junction.length == junction) with
  | none => rfl
  | some i =>
    exfalso
    have hp := List.find?_some hfind
    rw [Bool.and_eq_true] at hp
    have htake : (c.nucleotide_seq.drop i).take junction.length = junction := by
      have := hp.2
      simpa using this
    apply h
    rw [← htake]
    exact ((List.take_prefix _ _).isInfix).trans ((List.drop_suffix _ _).isInfix)

/-- Claim C8 (witness). -/
theorem junction_absent_records_neg_one_witness :
    ¬ (['C'] <:+: chainM.nucleotide_seq) ∧
    (chainM.set_junction ['C']).junction_start = -1 ∧
    (chainM.set_junction ['C']).junction_length = 1 := by
  refine ⟨by decide, junction_absent_records_neg_one chainM ['C'] (by decide)⟩

/-- The oracle that repeatedly draws position 0. -/
def pos_zero : ℕ → ℕ := fun _ => 0

/-- The substitution oracle drawing `'C'` at the first event and `'A'`
afterwards. -/
def sub_ca : ℕ → Char := fun k => if k = 0 then 'C' else 'A'

/-- The number of positions at which two sequences differ. -/
def distinct_diff_count (a b : List Char) : ℕ :=
  ((List.range a.length).filter (fun i => a.getD i ' ' ≠ b.getD i ' ')).length

/-- Claim C10: `Chain.mutate` returns the event count `n` for every
chain and every sequence of draws, and the `n` weighted position draws
are separate (size-1) draws, so the same position can be hit twice: in
the concrete run below both events draw position 0 (`pos_zero 0 =
pos_zero 1`), the returned count is 2, yet the final sequence differs
from the original at 0 < 2 distinct sites. -/
theorem mutate_counts_events_not_sites :
    (∀ (tbl : Bool → List Char → ℚ) (pos : ℕ → ℕ) (sub : ℕ → Char)
      (c : Chain) (n : ℕ), (Chain.mutate tbl pos sub c n).2 = n) ∧
    pos_zero 0 = pos_zero 1 ∧
    (Chain.mutate tbl1 pos_zero sub_ca chainK 2).2 = 2 ∧
    distinct_diff_count chainK.nucleotide_seq
      (Chain.mutate tbl1 pos_zero sub_ca chainK 2).1.nucleotide_seq = 0 := by
  refine ⟨?_, rfl, rfl, by decide⟩
  intro tbl pos sub c n
  unfold Chain.mutate
  split <;> rfl

/-- Scoring a chain does not change its amino-acid sequence, hence not
its functionality. -/
theorem calculate_affinity_functionality (c : Chain) (t : TargetAminoAcid) :
    (c.calculate_affinity t).get_functionality = c.get_functionality := rfl

/-- The affinity recorded by `Chain.calculate_affinity` is the
match/mismatch multiplier product. -/
theorem calculate_affinity_value (c : Chain) (t : TargetAminoAcid) :
    (c.calculate_affinity t).affinity = affinity_fold c.amino_acid_seq t := rfl

/-- When every multiplier consulted is non-zero, the multiplier product
of `Chain.calculate_affinity` is non-zero (each step multiplies by a
non-zero multiplier or its non-zero reciprocal). -/
theorem affinity_fold_ne_zero (aa : List Char) (t : TargetAminoAcid)
    (hm : ∀ i < aa.length, t.all_multipliers i ≠ 0) :
    affinity_fold aa t ≠ 0 := by
  unfold affinity_fold
  have key : ∀ (l : List ℕ) (acc : ℚ), acc ≠ 0 →
      (∀ i ∈ l, t.all_multipliers i ≠ 0) →
      l.foldl
        (fun acc i =>
          if aa.getD i ' ' = t.amino_acid_seq.getD i ' ' then
            acc * t.all_multipliers i
          else
            acc * (t.all_multipliers i)⁻¹)
        acc ≠ 0 := by
    intro l
    induction l with
    | nil => intro acc h _; simpa using h
    | cons x xs ih =>
      intro acc h hmem
      have hx := hmem x (by simp)
      have hxs : ∀ i ∈ xs, t.all_multipliers i ≠ 0 :=
        fun i hi => hmem i (by simp [hi])
      simp only [List.foldl_cons]
      apply ih _ ?_ hxs
      split
      · exact mul_ne_zero h hx
      · exact mul_ne_zero h (inv_ne_zero hx)
  apply key _ _ one_ne_zero
  intro i hi
  exact hm i (List.mem_range.mp hi)

/-- Claim C1: after `Cell.calculate_affinity`, the cell's affinity is 0
iff at least one chain is non-functional (its amino-acid sequence
contains the stop marker); with both chains functional the affinity is
the non-zero multiplier product.  The hypotheses state that every
per-position multiplier consulted is non-zero (the source draws them
from distributions bounded away from zero; a zero multiplier would make
the Python float arithmetic degenerate as well). -/
theorem cell_affinity_zero_iff_nonfunctional (c : Cell) (tp : TargetAminoPair)
    (hh : ∀ i < c.heavy_chain.amino_acid_seq.length, tp.heavy.all_multipliers i ≠ 0)
    (hl : ∀ i < c.light_chain.amino_acid_seq.length, tp.light.all_multipliers i ≠ 0) :
    (c.calculate_affinity tp).affinity = 0 ↔
      (c.heavy_chain.get_functionality = false ∨
        c.light_chain.get_functionality = false) := by
  have hA := affinity_fold_ne_zero c.heavy_chain.amino_acid_seq tp.heavy hh
  have hB := affinity_fold_ne_zero c.light_chain.amino_acid_seq tp.light hl
  cases hH : c.heavy_chain.get_functionality <;>
    cases hL : c.light_chain.get_functionality <;>
      simp [Cell.calculate_affinity, calculate_affinity_functionality,
        calculate_affinity_value, hH, hL, mul_eq_zero, hA, hB]

/-- A concrete cell with a functional heavy chain and a non-functional
light chain. -/
def cellMixed : Cell :=
  Cell.make chainC chainStop 0 LocationName.GC 1

/-- Claim C1 (witness): the hypotheses hold for the concrete mixed cell
against the concrete target pair, and the affinity comes out 0 exactly
because the light chain is non-functional. -/
theorem cell_affinity_zero_iff_nonfunctional_witness :
    (∀ i < cellMixed.heavy_chain.amino_acid_seq.length,
      tpCM.heavy.all_multipliers i ≠ 0) ∧
    (∀ i < cellMixed.light_chain.amino_acid_seq.length,
      tpCM.light.all_multipliers i ≠ 0) ∧
    ((cellMixed.calculate_affinity tpCM).affinity = 0 ↔
      (cellMixed.heavy_chain.get_functionality = false ∨
        cellMixed.light_chain.get_functionality = false)) := by
  refine ⟨by decide, by decide,
    cell_affinity_zero_iff_nonfunctional cellMixed tpCM (by decide) (by decide)⟩

/-- Children are constructed alive: `Cell.__init__` defaults
`is_alive = True` and neither mutation nor affinity evaluation changes
the flag. -/
theorem make_new_child_is_alive (tbl : Bool → List Char → ℚ)
    (tp : TargetAminoPair) (time : ℕ) (rate : ℚ) (d : ChildDraws)
    (node : SimNode) :
    (make_new_child tbl tp time rate d node).cell.is_alive = true := rfl

/-- Claim C2 (amended): every freshly spawned child is alive, so the
`live_children` filter of `make_new_generation` retains all spawned
children — chain functionality plays no role in membership of the next
generation (a non-functional child joins, merely with affinity 0). -/
theorem live_children_filter_vacuous :
    (∀ (tbl : Bool → List Char → ℚ) (tp : TargetAminoPair) (time : ℕ)
      (rate : ℚ) (d : ChildDraws) (node : SimNode),
      (make_new_child tbl tp time rate d node).cell.is_alive = true) ∧
    (∀ (tbl : Bool → List Char → ℚ) (tp : TargetAminoPair) (time : ℕ)
      (rate : ℚ) (ds : ℕ → ChildDraws) (node : SimNode),
      live_children_of tbl tp time rate ds node =
        spawn_children tbl tp time rate ds node) := by
  refine ⟨make_new_child_is_alive, ?_⟩
  intro tbl tp time rate ds node
  unfold live_children_of
  apply List.filter_eq_self.mpr
  intro x hx
  simp only [spawn_children, List.mem_map] at hx
  obtain ⟨j, _, rfl⟩ := hx
  rfl

/-- A concrete parent node holding one captured antigen unit. -/
def parent0 : SimNode :=
  { cell := Cell.make chainC chainM 0 LocationName.GC 1,
    antigen := 1, heavy_mutations := 0, light_mutations := 0,
    generation := 0 }

/-- Draws under which the child's heavy chain mutates `"TGC" → "TGA"`,
acquiring a stop codon. -/
def ds_stop : ℕ → ChildDraws := fun _ =>
  { nH := 1, nL := 0, posH := fun _ => 2, subH := fun _ => 'A',
    posL := fun _ => 0, subL := fun _ => 'A' }

/-- Claim C2 (counterexample): from a parent with functional chains, the
single spawned child is rendered non-functional by its mutation (its
heavy chain now translates to the stop marker), yet it passes the
live-children filter and joins the next generation — it is not
excluded. -/
theorem nonfunctional_child_joins_generation :
    parent0.cell.heavy_chain.get_functionality = true ∧
    (live_children_of tbl1 tpCM 1 1 ds_stop parent0).length = 1 ∧
    ((live_children_of tbl1 tpCM 1 1 ds_stop parent0).any
      (fun x => !x.cell.heavy_chain.get_functionality)) = true := by
  refine ⟨rfl, rfl, by decide⟩

/-- A concrete node whose cell carries affinity 0. -/
def node_zero : SimNode :=
  { cell := { (Cell.make chainC chainM 0 LocationName.GC 1) with affinity := 0 },
    antigen := 0, heavy_mutations := 0, light_mutations := 0, generation := 0 }

/-- A concrete generation whose selection weights sum to zero. -/
def gen_zero : List SimNode := [node_zero, node_zero]

/-- Claim C3 (counterexample): on a generation whose affinities sum to
zero, the selection-enabled draw of `make_new_generation` fails
(`numpy`'s weight validation rejects the degenerate normalized vector),
while the unweighted draw (`p = None`) on the same generation succeeds —
the engine does not degrade to the unweighted draw. -/
theorem zero_sum_selection_no_uniform_fallback :
    except_ok (rng_choice_node gen_zero (selection_weights true gen_zero) 0) = false ∧
    except_ok (rng_choice_node gen_zero none 0) = true := by
  constructor
  · norm_num [rng_choice_node, selection_weights, gen_zero, node_zero,
      Cell.make, except_ok]
  · norm_num [rng_choice_node, gen_zero, except_ok]

/-- Claim C3 (amended): with selection enabled, whenever the
selection-weight vector of a non-empty generation sums to zero, the
normalized probability vector is degenerate and the reproduction draw
raises instead of falling back to an unweighted draw.  (A non-finite
weight, the other case flagged by the spec, is not representable over
`ℚ`; in the source it likewise fails `numpy`'s validation of `p`.) -/
theorem zero_sum_selection_weights_error (gen : List SimNode) (u : ℕ)
    (hne : gen ≠ [])
    (hsum : (gen.map (fun nd => nd.cell.affinity)).sum = 0) :
    except_ok (rng_choice_node gen (selection_weights true gen) u) = false := by
  have hp : selection_weights true gen =
      some ((gen.map (fun nd => nd.cell.affinity)).map
        (fun a => a / (gen.map (fun nd => nd.cell.affinity)).sum)) := by
    simp [selection_weights]
  have hzero : ∀ x ∈ (gen.map (fun nd => nd.cell.affinity)).map
      (fun a => a / (gen.map (fun nd => nd.cell.affinity)).sum), x = 0 := by
    intro x hx
    obtain ⟨a, _, rfl⟩ := List.mem_map.mp hx
    rw [hsum]
    exact div_zero a
  have hsump : ((gen.map (fun nd => nd.cell.affinity)).map
      (fun a => a / (gen.map (fun nd => nd.cell.affinity)).sum)).sum = 0 :=
    List.sum_eq_zero hzero
  have hlen0 : ¬ gen.length = 0 := by
    simpa [List.length_eq_zero] using hne
  rw [rng_choice_node, dif_neg hlen0, hp]
  simp only []
  rw [if_neg (by simp)]
  rw [if_neg (by
    simp only [List.any_eq_true, not_exists]
    push_neg
    intro x hx
    rw [hzero x hx]
    simp)]
  rw [if_pos (by rw [hsump]; norm_num)]
  rfl

/-- Claim C3 (witness). -/
theorem zero_sum_selection_weights_error_witness :
    gen_zero ≠ [] ∧
    (gen_zero.map (fun nd => nd.cell.affinity)).sum = 0 ∧
    except_ok (rng_choice_node gen_zero (selection_weights true gen_zero) 3) = false := by
  refine ⟨by decide, by norm_num [gen_zero, node_zero],
    zero_sum_selection_weights_error gen_zero 3 (by decide)
      (by norm_num [gen_zero, node_zero])⟩

/-- Incrementing one node's antigen counter raises the generation total
by exactly one. -/
theorem total_antigen_modify (g : List SimNode) (i : ℕ) (hi : i < g.length) :
    total_antigen (g.modify (fun nd => { nd with antigen := nd.antigen + 1 }) i) =
      total_antigen g + 1 := by
  induction g generalizing i with
  | nil => simp at hi
  | cons a l ih =>
    cases i with
    | zero =>
      simp [total_antigen, List.modify_zero_cons]
      omega
    | succ n =>
      have hn : n < l.length := by simpa using hi
      have := ih n hn
      simp only [total_antigen, List.map_cons, List.sum_cons,
        List.modify_succ_cons] at this ⊢
      omega

/-- The antigen-capture loop does not change the generation's length. -/
theorem length_distribute_antigen (gen : List SimNode) (m : ℕ) (draw : ℕ → ℕ) :
    (distribute_antigen gen m draw).length = gen.length := by
  unfold distribute_antigen
  generalize List.range m = l
  induction l generalizing gen with
  | nil => rfl
  | cons x xs ih => simp [List.foldl_cons, ih]

/-- Each in-range draw adds one captured unit, so `m` draws add `m`
units in total. -/
theorem total_antigen_distribute (gen : List SimNode) (m : ℕ) (draw : ℕ → ℕ)
    (hd : ∀ k < m, draw k < gen.length) :
    total_antigen (distribute_antigen gen m draw) = total_antigen gen + m := by
  induction m with
  | zero => simp [distribute_antigen]
  | succ n ih =>
    have hstep : distribute_antigen gen (n + 1) draw =
        (distribute_antigen gen n draw).modify
          (fun nd => { nd with antigen := nd.antigen + 1 }) (draw n) := by
      unfold distribute_antigen
      rw [List.range_succ, List.foldl_append, List.foldl_cons, List.foldl_nil]
    rw [hstep, total_antigen_modify, ih (fun k hk => hd k (Nat.lt_succ_of_lt hk))]
    · omega
    · rw [length_distribute_antigen]
      exact hd n (Nat.lt_succ_self n)

/-- Claim C5: in a capacity-controlled compartment, exactly
`max_population` reproductive-unit draws are made per generation (so the
captured total never exceeds the configured maximum), and a cell that
captured `k` units spawns exactly `min k 10` children — never more
than 10. -/
theorem capacity_and_fanout_bound (gen : List SimNode) (max_population : ℕ)
    (draw : ℕ → ℕ) (tbl : Bool → List Char → ℚ) (tp : TargetAminoPair)
    (time : ℕ) (rate : ℚ) (ds : ℕ → ChildDraws)
    (hd : ∀ k < max_population, draw k < gen.length)
    (h0 : total_antigen gen = 0) :
    total_antigen (distribute_antigen gen max_population draw) = max_population ∧
    (∀ nd : SimNode,
      (spawn_children tbl tp time rate ds nd).length = min nd.antigen 10 ∧
      (spawn_children tbl tp time rate ds nd).length ≤ 10) := by
  constructor
  · rw [total_antigen_distribute gen max_population draw hd, h0]
    omega
  · intro nd
    have hlen : (spawn_children tbl tp time rate ds nd).length = min nd.antigen 10 := by
      simp [spawn_children]
    exact ⟨hlen, by omega⟩

/-- Claim C5 (witness). -/
theorem capacity_and_fanout_bound_witness :
    (∀ k < 3, k % 2 < gen_zero.length) ∧
    total_antigen gen_zero = 0 ∧
    (total_antigen (distribute_antigen gen_zero 3 (fun k => k % 2)) = 3 ∧
      (∀ nd : SimNode,
        (spawn_children tbl1 tpCM 1 1 ds_stop nd).length = min nd.antigen 10 ∧
        (spawn_children tbl1 tpCM 1 1 ds_stop nd).length ≤ 10)) := by
  refine ⟨by decide, by decide,
    capacity_and_fanout_bound gen_zero 3 (fun k => k % 2) tbl1 tpCM 1 1 ds_stop
      (by decide) (by decide)⟩

/-- The from-scratch map has one entry per nucleotide position. -/
theorem create_mutability_map_length (mtbl : List Char → ℚ) (seq : List Char) :
    (create_mutability_map mtbl seq).length = seq.length := by
  simp [create_mutability_map]

/-- Entrywise description of the from-scratch map. -/
theorem getElem?_create_mutability_map (mtbl : List Char → ℚ) (seq : List Char)
    (k : ℕ) :
    (create_mutability_map mtbl seq)[k]? =
      if k < seq.length then some (mtbl (kmer_at seq k)) else none := by
  unfold create_mutability_map
  by_cases hk : k < seq.length
  · rw [if_pos hk, List.getElem?_map, List.getElem?_range hk]
    rfl
  · rw [if_neg hk, List.getElem?_eq_none]
    simpa using hk

/-- Writing table values along an index range leaves the length
unchanged. -/
theorem foldl_set_length (f : ℕ → ℚ) (l : List ℕ) (m : List ℚ) :
    (l.foldl (fun m j => m.set j (f j)) m).length = m.length := by
  induction l generalizing m with
  | nil => rfl
  | cons x xs ih => simp [List.foldl_cons, ih]

/-- Entrywise description of the window pass of
`update_mutability_map`: indices inside the written range take the
recomputed value, all others are untouched. -/
theorem foldl_set_range'_getElem? (f : ℕ → ℚ) (len : ℕ) :
    ∀ (a : ℕ) (m : List ℚ) (k : ℕ),
    ((List.range' a len).foldl (fun m j => m.set j (f j)) m)[k]? =
      if a ≤ k ∧ k < a + len ∧ k < m.length then some (f k) else m[k]? := by
  induction len with
  | zero =>
    intro a m k
    rw [if_neg (by omega)]
    rfl
  | succ n ih =>
    intro a m k
    rw [List.range'_succ, List.foldl_cons, ih (a + 1) (m.set a (f a)) k]
    by_cases h1 : a + 1 ≤ k ∧ k < a + 1 + n ∧ k < (m.set a (f a)).length
    · rw [if_pos h1, if_pos (by simp at h1; omega)]
    · rw [if_neg h1, List.getElem?_set]
      simp only [List.length_set] at h1
      by_cases hk : a = k
      · subst hk
        by_cases hlen : a < m.length
        · rw [if_pos rfl, if_pos hlen, if_pos (by omega)]
        · rw [if_pos rfl, if_neg hlen, if_neg (by omega),
            List.getElem?_eq_none (by omega)]
      · rw [if_neg hk, if_neg (by omega)]

/-- Substituting inside the sequence rewrites exactly one entry of the
padded sequence, two places to the right. -/
theorem padded_seq_set (seq : List Char) (i : ℕ) (c : Char)
    (hi : i < seq.length) :
    padded_seq (seq.set i c) = (padded_seq seq).set (i + 2) c := by
  simp only [padded_seq]
  rw [show i + 2 = (i + 1) + 1 by omega]
  rw [List.set_append_left _ _ (by simp; omega),
    List.set_cons_succ, List.set_cons_succ]

/-- A 5-mer window that does not touch the substituted position is
unchanged by the substitution. -/
theorem kmer_at_set_outside (seq : List Char) (i : ℕ) (c : Char) (k : ℕ)
    (hi : i < seq.length) (hout : k + 2 < i ∨ i + 2 < k) :
    kmer_at (seq.set i c) k = kmer_at seq k := by
  unfold kmer_at
  rw [padded_seq_set seq i c hi]
  apply List.ext_getElem?
  intro m
  by_cases hm : m < 5
  · rw [List.getElem?_take_of_lt hm, List.getElem?_take_of_lt hm,
      List.getElem?_drop, List.getElem?_drop,
      List.getElem?_set_ne (by omega)]
  · rw [List.getElem?_eq_none, List.getElem?_eq_none] <;>
      simp [List.length_take] <;> omega

/-- Key incremental step: if the mutability map is the from-scratch map
of `seq`, then after one in-range substitution the windowed update
produces exactly the from-scratch map of the new sequence. -/
theorem update_single_eq_create (mtbl : List Char → ℚ) (seq : List Char)
    (i : ℕ) (c : Char) (hi : i < seq.length) :
    update_mutability_map mtbl (seq.set i c)
        (create_mutability_map mtbl seq) [i] =
      create_mutability_map mtbl (seq.set i c) := by
  unfold update_mutability_map
  rw [List.foldl_cons, List.foldl_nil]
  apply List.ext_getElem?
  intro k
  rw [foldl_set_range'_getElem?, getElem?_create_mutability_map,
    getElem?_create_mutability_map, create_mutability_map_length]
  simp only [List.length_set]
  split_ifs with h1 h2
  · rfl
  · exact absurd h1.2.2 h2
  · exact congrArg (fun x => some (mtbl x))
      (kmer_at_set_outside seq i c k hi (by omega)).symm
  · rfl

/-- The incremental pipeline keeps the mutability map equal to the
from-scratch map of the current sequence after every prefix of the
substitution list. -/
theorem apply_substitutions_invariant (mtbl : List Char → ℚ) :
    ∀ (subs : List (ℕ × Char)) (s : List Char),
    (∀ p ∈ subs, p.1 < s.length) →
    subs.foldl (mutability_step mtbl) (s, create_mutability_map mtbl s) =
      (subs.foldl (fun t p => substitute_nucleotide t p.1 p.2) s,
        create_mutability_map mtbl
          (subs.foldl (fun t p => substitute_nucleotide t p.1 p.2) s)) := by
  intro subs
  induction subs with
  | nil => intro s _; rfl
  | cons p ps ih =>
    intro s hs
    rw [List.foldl_cons, List.foldl_cons]
    have hstep : mutability_step mtbl (s, create_mutability_map mtbl s) p =
        (substitute_nucleotide s p.1 p.2,
          create_mutability_map mtbl (substitute_nucleotide s p.1 p.2)) := by
      unfold mutability_step substitute_nucleotide
      exact congrArg _ (update_single_eq_create mtbl s p.1 p.2 (hs p (by simp)))
    rw [hstep]
    exact ih _ (fun q hq => by
      rw [substitute_nucleotide, List.length_set]
      exact hs q (by simp [hq]))

/-- Claim C4: for any mutability table, any sequence and any list of
in-range single-nucleotide substitutions, the incrementally maintained
mutability vector equals the vector recomputed from scratch on the
resulting sequence, and its length equals the resulting nucleotide
sequence's length. -/
theorem incremental_mutability_eq_full (mtbl : List Char → ℚ)
    (seq : List Char) (subs : List (ℕ × Char))
    (h : ∀ p ∈ subs, p.1 < seq.length) :
    (apply_substitutions mtbl seq subs).2 =
      create_mutability_map mtbl (apply_substitutions mtbl seq subs).1 ∧
    (apply_substitutions mtbl seq subs).2.length =
      (apply_substitutions mtbl seq subs).1.length := by
  unfold apply_substitutions
  rw [apply_substitutions_invariant mtbl subs seq h]
  exact ⟨rfl, create_mutability_map_length _ _⟩

/-- A concrete mutability table used by the witness. -/
def mtbl_count : List Char → ℚ := fun l => (l.count 'A' : ℚ)

/-- Claim C4 (witness): three substitutions on `"ACGT"`, two of them at
the same position. -/
theorem incremental_mutability_eq_full_witness :
    (∀ p ∈ [((1 : ℕ), 'T'), (3, 'A'), (1, 'C')],
      p.1 < (['A','C','G','T'] : List Char).length) ∧
    ((apply_substitutions mtbl_count ['A','C','G','T']
        [(1, 'T'), (3, 'A'), (1, 'C')]).2 =
      create_mutability_map mtbl_count
        (apply_substitutions mtbl_count ['A','C','G','T']
          [(1, 'T'), (3, 'A'), (1, 'C')]).1 ∧
    (apply_substitutions mtbl_count ['A','C','G','T']
        [(1, 'T'), (3, 'A'), (1, 'C')]).2.length =
      (apply_substitutions mtbl_count ['A','C','G','T']
        [(1, 'T'), (3, 'A'), (1, 'C')]).1.length) := by
  refine ⟨by decide,
    incremental_mutability_eq_full mtbl_count ['A','C','G','T']
      [(1, 'T'), (3, 'A'), (1, 'C')] (by decide)⟩

/-- Structural induction over the lineage tree: to prove a property of
every tree it suffices to prove it for a node assuming it for every
child. -/
theorem LTree.ind_mem {P : LTree → Prop}
    (h : ∀ d cs, (∀ c ∈ cs, P c) → P (LTree.node d cs)) : ∀ t, P t
  | LTree.node d cs => h d cs (fun c hc => LTree.ind_mem h c)
termination_by t => sizeOf t
decreasing_by have := List.sizeOf_lt_of_mem hc; simp; omega

/-- `attach`-elimination for the recursive call list of `simplify_go`. -/
theorem attach_map_simplify (cs : List LTree) :
    cs.attach.map (fun c => simplify_go c.1 0 0 0) =
      cs.map (fun c => simplify_go c 0 0 0) := by
  simp

/-- Unfolding `simplify_go` at a unary node: the node is collapsed. -/
theorem simplify_go_unary (d : NodeData) (c : LTree)
    (time_since_last_split h l : ℕ) :
    simplify_go (LTree.node d [c]) time_since_last_split h l =
      simplify_go c (time_since_last_split + 1) (h + d.heavy_mutations)
        (l + d.light_mutations) := by
  rw [simplify_go]

/-- Unfolding `simplify_go` at a retained node (zero or at least two
children). -/
theorem simplify_go_retained (d : NodeData) (cs : List LTree)
    (time_since_last_split h l : ℕ) (hcs : ∀ c : LTree, cs ≠ [c]) :
    simplify_go (LTree.node d cs) time_since_last_split h l =
      LTree.node
        { d with
          time_since_last_split := some (time_since_last_split + 1),
          heavy_mutations := d.heavy_mutations + h,
          light_mutations := d.light_mutations + l }
        (cs.map (fun c => simplify_go c 0 0 0)) := by
  cases cs with
  | nil => rw [simplify_go] <;> simp
  | cons c1 rest =>
    cases rest with
    | nil => exact absurd rfl (hcs c1)
    | cons c2 rest2 => rw [simplify_go] <;> simp

/-- Unfolding `unary_chain` at a unary node. -/
theorem unary_chain_unary (d : NodeData) (c : LTree) :
    unary_chain (LTree.node d [c]) = LTree.node d [c] :: unary_chain c := by
  rw [unary_chain]

/-- Unfolding `unary_chain` at a retained node. -/
theorem unary_chain_retained (d : NodeData) (cs : List LTree)
    (hcs : ∀ c : LTree, cs ≠ [c]) :
    unary_chain (LTree.node d cs) = [LTree.node d cs] := by
  cases cs with
  | nil => rw [unary_chain] <;> simp
  | cons c1 rest =>
    cases rest with
    | nil => exact absurd rfl (hcs c1)
    | cons c2 rest2 => rw [unary_chain] <;> simp

/-- Unfolding `retained_end` at a unary node. -/
theorem retained_end_unary (d : NodeData) (c : LTree) :
    retained_end (LTree.node d [c]) = retained_end c := by
  rw [retained_end]

/-- Unfolding `retained_end` at a retained node. -/
theorem retained_end_retained (d : NodeData) (cs : List LTree)
    (hcs : ∀ c : LTree, cs ≠ [c]) :
    retained_end (LTree.node d cs) = LTree.node d cs := by
  cases cs with
  | nil => rw [retained_end] <;> simp
  | cons c1 rest =>
    cases rest with
    | nil => exact absurd rfl (hcs c1)
    | cons c2 rest2 => rw [retained_end] <;> simp

/-- Claim C7: `simplify_tree` keeps the root as is and, for every
processed subtree, produces the retained node at the end of the unary
chain, whose recorded per-edge heavy/light mutation counts are the
accumulators plus the sums of the per-edge counts along the collapsed
chain, whose recorded time-since-last-split is the accumulator plus the
number of original edges along that chain, and whose children are the
retained node's children processed with zeroed accumulators. -/
theorem simplify_tree_collapse_sums :
    (∀ (d : NodeData) (cs : List LTree),
      simplify_tree (LTree.node d cs) =
        LTree.node d (cs.map (fun c => simplify_go c 0 0 0))) ∧
    (∀ (t : LTree) (time_since_last_split h l : ℕ),
      simplify_go t time_since_last_split h l =
        LTree.node
          { (retained_end t).data with
            time_since_last_split :=
              some (time_since_last_split + (unary_chain t).length),
            heavy_mutations :=
              h + ((unary_chain t).map
                (fun nd => nd.data.heavy_mutations)).sum,
            light_mutations :=
              l + ((unary_chain t).map
                (fun nd => nd.data.light_mutations)).sum }
          ((retained_end t).children.map (fun c => simplify_go c 0 0 0))) := by
  constructor
  · intro d cs
    simp only [simplify_tree]
    exact congrArg _ (attach_map_simplify cs)
  · intro t
    induction t using LTree.ind_mem with
    | h d cs ih =>
      intro tsls h l
      by_cases hu : ∃ c : LTree, cs = [c]
      · obtain ⟨c, rfl⟩ := hu
        rw [simplify_go_unary, unary_chain_unary, retained_end_unary,
          ih c (by simp)]
        simp only [List.length_cons, List.map_cons, List.sum_cons, LTree.data]
        congr 1
        ext <;> simp <;> omega
      · push_neg at hu
        rw [simplify_go_retained d cs tsls h l hu,
          unary_chain_retained d cs hu, retained_end_retained d cs hu]
        simp only [List.length_cons, List.length_nil, List.map_cons,
          List.map_nil, List.sum_cons, List.sum_nil, LTree.data,
          LTree.children]
        congr 1
        ext <;> simp <;> omega

/-- `attach`-elimination for the recursive call list of
`build_tree_to_keep`. -/
theorem attach_map_build (to_keep : List ℕ) (cs : List LTree) :
    cs.attach.map (fun c => build_tree_to_keep to_keep c.1) =
      cs.map (build_tree_to_keep to_keep) := by
  simp

/-- `attach`-elimination for the recursive call list of `leaf_ids`. -/
theorem attach_map_leaf (cs : List LTree) :
    cs.attach.map (fun c => leaf_ids c.1) = cs.map leaf_ids := by
  simp

/-- `attach`-elimination for the recursive call list of `kept_tips`. -/
theorem attach_map_kept (to_keep : List ℕ) (cs : List LTree) :
    cs.attach.map (fun c => kept_tips to_keep c.1) =
      cs.map (kept_tips to_keep) := by
  simp

/-- `attach`-elimination for the recursive call list of `all_ids`. -/
theorem attach_map_all (cs : List LTree) :
    cs.attach.map (fun c => all_ids c.1) = cs.map all_ids := by
  simp

/-- Unfolding `build_tree_to_keep` at a node. -/
theorem build_tree_to_keep_eq (to_keep : List ℕ) (d : NodeData)
    (cs : List LTree) :
    build_tree_to_keep to_keep (LTree.node d cs) =
      (if ((cs.map (build_tree_to_keep to_keep)).reduceOption).isEmpty then
        if d.cell_id ∈ to_keep then some (LTree.node d []) else none
      else
        some (LTree.node d ((cs.map (build_tree_to_keep to_keep)).reduceOption))) := by
  rw [build_tree_to_keep, attach_map_build]

/-- Unfolding `leaf_ids` at a leaf. -/
theorem leaf_ids_nil (d : NodeData) :
    leaf_ids (LTree.node d []) = [d.cell_id] := by
  rw [leaf_ids]

/-- Unfolding `leaf_ids` at an internal node. -/
theorem leaf_ids_cons (d : NodeData) (c : LTree) (cs : List LTree) :
    leaf_ids (LTree.node d (c :: cs)) =
      ((c :: cs).map leaf_ids).flatten := by
  rw [leaf_ids] <;> simp

/-- Unfolding `all_ids`. -/
theorem all_ids_eq (d : NodeData) (cs : List LTree) :
    all_ids (LTree.node d cs) = d.cell_id :: (cs.map all_ids).flatten := by
  rw [all_ids, attach_map_all]

/-- Unfolding `kept_tips` at a node. -/
theorem kept_tips_eq (to_keep : List ℕ) (d : NodeData) (cs : List LTree) :
    kept_tips to_keep (LTree.node d cs) =
      (if (cs.map (kept_tips to_keep)).flatten = [] then
        if d.cell_id ∈ to_keep then [d.cell_id] else []
      else
        (cs.map (kept_tips to_keep)).flatten) := by
  rw [kept_tips, attach_map_kept]
  cases hj : (cs.map (kept_tips to_keep)).flatten with
  | nil => simp
  | cons x xs => simp

/-- Every tree has at least one leaf. -/
theorem leaf_ids_ne_nil : ∀ t : LTree, leaf_ids t ≠ [] := by
  intro t
  induction t using LTree.ind_mem with
  | h d cs ih =>
    cases cs with
    | nil => rw [leaf_ids_nil]; simp
    | cons c cs2 =>
      rw [leaf_ids_cons]
      simp only [List.map_cons, List.flatten_cons, ne_eq, List.append_eq_nil]
      intro hcontra
      exact ih c (by simp) hcontra.1

/-- Dropped (`None`) pruning results contribute no leaves: flattening
over the compacted list equals flattening over the optional list. -/
theorem reduceOption_leaf_flatten (os : List (Option LTree)) :
    ((os.reduceOption).map leaf_ids).flatten =
      (os.map (fun o => (o.map leaf_ids).getD [])).flatten := by
  induction os with
  | nil => rfl
  | cons o os ih =>
    cases o with
    | none =>
      rw [List.reduceOption_cons_of_none]
      simpa using ih
    | some t =>
      rw [List.reduceOption_cons_of_some]
      simp only [List.map_cons, List.flatten_cons]
      rw [ih]
      rfl

/-- The leaf identities of the pruned tree, folded over the `Option`
result. -/
theorem pruned_leaf_ids_eq_getD (t : LTree) (to_keep : List ℕ) :
    pruned_leaf_ids t to_keep =
      ((build_tree_to_keep to_keep t).map leaf_ids).getD [] := by
  unfold pruned_leaf_ids prune_subtree
  cases build_tree_to_keep to_keep t <;> rfl

/-- Core of the pruning analysis: the leaves of the pruned tree are
exactly the kept tips of the original tree (in traversal order). -/
theorem build_leaf_eq_kept_tips (to_keep : List ℕ) :
    ∀ t : LTree,
    ((build_tree_to_keep to_keep t).map leaf_ids).getD [] =
      kept_tips to_keep t := by
  intro t
  induction t using LTree.ind_mem with
  | h d cs ih =>
    rw [build_tree_to_keep_eq, kept_tips_eq]
    have hmap : (((cs.map (build_tree_to_keep to_keep)).reduceOption).map
        leaf_ids).flatten = (cs.map (kept_tips to_keep)).flatten := by
      rw [reduceOption_leaf_flatten, List.map_map]
      congr 1
      exact List.map_congr_left (fun c hc => ih c hc)
    by_cases hsub : ((cs.map (build_tree_to_keep to_keep)).reduceOption).isEmpty
    · have hsubnil : (cs.map (build_tree_to_keep to_keep)).reduceOption = [] :=
        List.isEmpty_iff.mp hsub
      have hflat : (cs.map (kept_tips to_keep)).flatten = [] := by
        rw [← hmap, hsubnil]; rfl
      rw [if_pos hsub, if_pos hflat]
      by_cases hmem : d.cell_id ∈ to_keep
      · rw [if_pos hmem, if_pos hmem]
        simp [leaf_ids_nil]
      · rw [if_neg hmem, if_neg hmem]; rfl
    · have hsubne : (cs.map (build_tree_to_keep to_keep)).reduceOption ≠ [] := by
        simpa [List.isEmpty_iff] using hsub
      obtain ⟨s, ss, hss⟩ := List.exists_cons_of_ne_nil hsubne
      have hflatne : (cs.map (kept_tips to_keep)).flatten ≠ [] := by
        rw [← hmap, hss]
        simp only [List.map_cons, List.flatten_cons, ne_eq,
          List.append_eq_nil]
        intro hcontra
        exact leaf_ids_ne_nil s hcontra.1
      rw [if_neg hsub, if_neg hflatne]
      rw [← hmap, hss]
      simp [leaf_ids_cons]

/-- Every kept tip's identity is in the keep-set. -/
theorem kept_tips_subset (to_keep : List ℕ) :
    ∀ t : LTree, ∀ x ∈ kept_tips to_keep t, x ∈ to_keep := by
  intro t
  induction t using LTree.ind_mem with
  | h d cs ih =>
    intro x hx
    rw [kept_tips_eq] at hx
    by_cases hflat : (cs.map (kept_tips to_keep)).flatten = []
    · rw [if_pos hflat] at hx
      by_cases hmem : d.cell_id ∈ to_keep
      · rw [if_pos hmem] at hx
        simp only [List.mem_singleton] at hx
        exact hx ▸ hmem
      · rw [if_neg hmem] at hx
        simp at hx
    · rw [if_neg hflat] at hx
      simp only [List.mem_flatten, List.mem_map] at hx
      obtain ⟨l, ⟨c, hc, rfl⟩, hxl⟩ := hx
      exact ih c hc x hxl

/-- Pointwise bound for sums of mapped naturals. -/
theorem sum_map_le_sum_map (cs : List LTree) (f g : LTree → ℕ)
    (h : ∀ c ∈ cs, f c ≤ g c) :
    (cs.map f).sum ≤ (cs.map g).sum := by
  induction cs with
  | nil => simp
  | cons c cs2 ih =>
    simp only [List.map_cons, List.sum_cons]
    have h1 := h c (by simp)
    have h2 := ih (fun c hc => h c (by simp [hc]))
    omega

/-- Each identity occurs among the kept tips at most as often as it
occurs among all nodes of the tree. -/
theorem count_kept_tips_le_all (to_keep : List ℕ) (i : ℕ) :
    ∀ t : LTree, (kept_tips to_keep t).count i ≤ (all_ids t).count i := by
  intro t
  induction t using LTree.ind_mem with
  | h d cs ih =>
    rw [kept_tips_eq, all_ids_eq]
    by_cases hflat : (cs.map (kept_tips to_keep)).flatten = []
    · rw [if_pos hflat]
      by_cases hmem : d.cell_id ∈ to_keep
      · rw [if_pos hmem]
        rw [List.count_cons]
        rcases eq_or_ne i d.cell_id with hi | hi
        · subst hi
          simp
        · simp [List.count_singleton, hi, Ne.symm hi]
      · rw [if_neg hmem]
        simp
    · rw [if_neg hflat, List.count_cons]
      have hle : ((cs.map (kept_tips to_keep)).flatten).count i ≤
          ((cs.map all_ids).flatten).count i := by
        rw [List.count_flatten, List.count_flatten, List.map_map,
          List.map_map]
        exact sum_map_le_sum_map cs _ _ (fun c _ => ih c (by assumption))
      omega

/-- Claim C6 (amended): the leaves of `prune_subtree(keep)` are exactly
the kept tips of the original tree — the nodes whose identity is in the
keep-set and that have no strict descendant whose identity is also in
the keep-set.  Hence every leaf identity of the result is in the
keep-set, and, when node identities are distinct (as `id()`-based
identities of simultaneously live cells are), every kept-tip identity
appears as exactly one leaf of the result.  (An identity in the keep-set
that exists in the tree but has a kept strict descendant is retained
only as an internal node, not as a leaf.) -/
theorem prune_subtree_leaf_characterization (t : LTree) (to_keep : List ℕ) :
    pruned_leaf_ids t to_keep = kept_tips to_keep t ∧
    (∀ x ∈ pruned_leaf_ids t to_keep, x ∈ to_keep) ∧
    ((all_ids t).Nodup →
      ∀ i ∈ kept_tips to_keep t, (pruned_leaf_ids t to_keep).count i = 1) := by
  have heq : pruned_leaf_ids t to_keep = kept_tips to_keep t := by
    rw [pruned_leaf_ids_eq_getD]
    exact build_leaf_eq_kept_tips to_keep t
  refine ⟨heq, ?_, ?_⟩
  · intro x hx
    rw [heq] at hx
    exact kept_tips_subset to_keep t x hx
  · intro hnodup i hi
    rw [heq]
    have hle : (kept_tips to_keep t).count i ≤ (all_ids t).count i :=
      count_kept_tips_le_all to_keep i t
    have hone : (all_ids t).count i ≤ 1 :=
      List.nodup_iff_count_le_one.mp hnodup i
    have hpos : 0 < (kept_tips to_keep t).count i :=
      List.count_pos_iff.mpr hi
    omega

/-- A concrete two-node chain: root identity 0, leaf identity 1. -/
def tree_chain2 : LTree :=
  LTree.node ⟨0, 0, 0, none⟩ [LTree.node ⟨1, 0, 0, none⟩ []]

/-- Claim C6 (counterexample): with the keep-set `{0, 1}` on the
two-node chain, identity 0 is in the keep-set and existed in the
original tree, yet it appears as a leaf of the pruned result zero times
(it is retained only as the internal root above the kept leaf 1) — not
exactly once as the claim requires. -/
theorem kept_internal_id_not_a_leaf :
    (0 : ℕ) ∈ ([0, 1] : List ℕ) ∧
    (0 : ℕ) ∈ all_ids tree_chain2 ∧
    (pruned_leaf_ids tree_chain2 [0, 1]).count 0 = 0 := by
  refine ⟨by decide, ?_, ?_⟩
  · rw [tree_chain2, all_ids_eq]
    simp
  · rw [pruned_leaf_ids_eq_getD, tree_chain2, build_tree_to_keep_eq]
    simp only [List.map_cons, List.map_nil, build_tree_to_keep_eq,
      List.reduceOption, List.filterMap_nil, List.filterMap_cons]
    simp [leaf_ids_cons, leaf_ids_nil]

/-- Claim C6 (witness): the amended characterization applied to the
concrete two-node chain, whose identities are distinct. -/
theorem prune_subtree_leaf_characterization_witness :
    (all_ids tree_chain2).Nodup ∧
    (pruned_leaf_ids tree_chain2 [1] = kept_tips [1] tree_chain2 ∧
      (∀ x ∈ pruned_leaf_ids tree_chain2 [1], x ∈ ([1] : List ℕ)) ∧
      ((all_ids tree_chain2).Nodup →
        ∀ i ∈ kept_tips [1] tree_chain2,
          (pruned_leaf_ids tree_chain2 [1]).count i = 1)) := by
  refine ⟨?_, prune_subtree_leaf_characterization tree_chain2 [1]⟩
  rw [tree_chain2, all_ids_eq]
  simp [all_ids_eq]
